import Mathlib

/-!
Shallow embedding of the PageRank estimator `src/pagerank.py` and a
verification of its specification claims.

Real-valued arithmetic is modelled over `ℚ` (Python floats are idealised
as exact rationals).  The pseudo-random source of the sampler is
modelled as an explicit stream of draws `rng : Nat → Nat`, each draw
selecting an index into the population list passed to `random.choices`.
Python divisions that can raise `ZeroDivisionError` are mirrored by
`Option`-valued checked variants where a claim is about division safety.
-/

namespace PageRank

/-- Page identifiers (Python strings). -/
abbrev Page := String

/-- A corpus: the insertion-ordered dictionary mapping each page to the
list of pages it links to.  Python stores the link sets as `set`; here
they are lists, required to be duplicate-free by `ValidGraph`. -/
abbrev Corpus := List (Page × List Page)

/-- The pages of the corpus, in dictionary order. -/
def keys (corpus : Corpus) : List Page := corpus.map Prod.fst

/-- The data-model invariants of the link graph: unique keys,
duplicate-free link sets, a closed corpus (every link target is itself a
key) and no self-loops. -/
def ValidGraph (corpus : Corpus) : Prop :=
  (keys corpus).Nodup ∧
    ∀ kv ∈ corpus, kv.2.Nodup ∧ (∀ l ∈ kv.2, l ∈ keys corpus) ∧ kv.1 ∉ kv.2

/-- One step of the scanning loop of `transition_model`: when the current
dictionary key equals the queried page, record that key's link set as
`linked` and every corpus page outside it as `unlinked`; otherwise keep
the accumulator (both components start empty, as in the source). -/
def fpStep (allKeys : List Page) (page : Page) (acc : List Page × List Page)
    (kv : Page × List Page) : List Page × List Page :=
  if kv.1 = page then (kv.2, allKeys.filter (fun k => ¬ k ∈ kv.2)) else acc

/-- The `(linked, unlinked)` pair computed by the first loop of
`transition_model`. -/
def findPageData (corpus : Corpus) (page : Page) : List Page × List Page :=
  corpus.foldl (fpStep (keys corpus) page) ([], [])

/-- `transition_model(corpus, page, damping_factor)`.  Every key of the
model dictionary (initialised to `0.0` in the source and then
overwritten for every key) receives `base_prob = (1 - d) / total`, plus
`d / linked_count` when the key is one of the queried page's links.
When the queried page is not a key, `total = 0`; in Python that division
raises, here `ℚ` division by zero yields `0` (see the checked variant
`transition_model_checked`). -/
def transition_model (corpus : Corpus) (page : Page) (d : ℚ) : List (Page × ℚ) :=
  let linked := (findPageData corpus page).1
  let unlinked := (findPageData corpus page).2
  let linked_count : ℚ := linked.length
  let unlinked_count : ℚ := unlinked.length
  let total := linked_count + unlinked_count
  let base_prob := (1 - d) / total
  (keys corpus).map (fun key =>
    (key, if key ∈ linked then base_prob + d / linked_count else base_prob))

/-- The sum of the values of a page-to-rational dictionary. -/
def sumValues (m : List (Page × ℚ)) : ℚ := (m.map Prod.snd).sum

/-- A draw from `random.choices(pop, ...)`: the raw draw `r` selects an
index into the population.  (For an empty population Python raises; the
caller `sample_pagerank` guards that case.) -/
def pick (pop : List Page) (r : Nat) : Page := pop.getD (r % pop.length) ""

/-- The sampling loop of `sample_pagerank`: from current page `s`, take
`m` further steps; step `i` builds the transition model of `s`, lists
its pages and probabilities, and draws the next page from that
population. -/
def sampleChain (corpus : Corpus) (d : ℚ) (rng : Nat → Nat) :
    Nat → Nat → Page → List Page
  | 0, _, _ => []
  | m + 1, i, s =>
    let model := transition_model corpus s d
    let next_pages := model.map Prod.fst
    let s2 := pick next_pages (rng i)
    s2 :: sampleChain corpus d rng m (i + 1) s2

/-- The full list of visited pages of `sample_pagerank`: the initial
uniform choice followed by the `n - 1` chain steps. -/
def sampleTrajectory (corpus : Corpus) (d : ℚ) (n : Int) (rng : Nat → Nat) :
    List Page :=
  let s0 := pick (keys corpus) (rng 0)
  s0 :: sampleChain corpus d rng (n - 1).toNat 1 s0

/-- `rank[sample] += 1 / n`, as a pointwise function update. -/
def visitAdd (n : Int) (r : Page → ℚ) (s : Page) : Page → ℚ :=
  fun p => if p = s then r p + 1 / (n : ℚ) else r p

/-- `sample_pagerank(corpus, damping_factor, n)`.  The two Python
failure points are mirrored as `none`: `random.choices` on an empty
corpus raises, and `1 / n` raises when `n = 0`.  No other validation is
performed: any other `n`, including negative ones, produces a
dictionary.  The returned dictionary has one entry per corpus key, the
accumulated `1 / n` increments of the visits. -/
def sample_pagerank (corpus : Corpus) (d : ℚ) (n : Int) (rng : Nat → Nat) :
    Option (List (Page × ℚ)) :=
  match corpus with
  | [] => none
  | _ :: _ =>
    if n = 0 then none
    else
      let rank := (sampleTrajectory corpus d n rng).foldl (visitAdd n) (fun _ => 0)
      some ((keys corpus).map (fun k => (k, rank k)))

/-- The convergence threshold fixed inside `iterate_pagerank`
(`threshold = 0.0005`). -/
def threshold : ℚ := 1 / 2000

/-- The PageRank recurrence evaluated against rank state `r`:
`(1 - d) / N` plus `d` times the sum over all corpus entries that link
to `key` of `r page / num_links`. -/
def newRank (corpus : Corpus) (d : ℚ) (N : ℚ) (r : Page → ℚ) (key : Page) : ℚ :=
  (1 - d) / N +
    d * corpus.foldl
      (fun sigma kv =>
        if key ∈ kv.2 then sigma + r kv.1 / (kv.2.length : ℚ) else sigma)
      0

/-- Pointwise update of the rank dictionary (`ranks[key] = new`). -/
def update (r : Page → ℚ) (key : Page) (v : ℚ) : Page → ℚ :=
  fun p => if p = key then v else r p

/-- The body of the per-key loop of one sweep of `iterate_pagerank`:
compute `new` from the current (possibly already partially updated)
state, bump the convergence counter when `|ranks[key] - new|` is below
the threshold, then install `new` in place. -/
def sweepStep (corpus : Corpus) (d : ℚ) (N : ℚ) (st : (Page → ℚ) × Nat)
    (kv : Page × List Page) : (Page → ℚ) × Nat :=
  let new := newRank corpus d N st.1 kv.1
  let count := if |st.1 kv.1 - new| < threshold then st.2 + 1 else st.2
  (update st.1 kv.1 new, count)

/-- One full sweep of the `while True` loop of `iterate_pagerank`:
fold the per-key update over the corpus keys in dictionary order,
starting from convergence counter `0`. -/
def sweepOnce (corpus : Corpus) (d : ℚ) (r : Page → ℚ) : (Page → ℚ) × Nat :=
  corpus.foldl (sweepStep corpus d (corpus.length : ℚ)) (r, 0)

/-- The `while True` loop of `iterate_pagerank`, embedded with explicit
fuel (the source loop is unbounded); `none` means the loop had not yet
exited after `fuel` sweeps. -/
def iterateAux (corpus : Corpus) (d : ℚ) : Nat → (Page → ℚ) → Option (Page → ℚ)
  | 0, _ => none
  | fuel + 1, r =>
    let st := sweepOnce corpus d r
    if st.2 = corpus.length then some st.1 else iterateAux corpus d fuel st.1

/-- `iterate_pagerank(corpus, damping_factor)`: ranks start uniform at
`1 / N` and are swept until the first sweep in which all `N` pages
change by less than the fixed threshold. -/
def iterate_pagerank (corpus : Corpus) (d : ℚ) (fuel : Nat) :
    Option (Page → ℚ) :=
  iterateAux corpus d fuel (fun _ => 1 / (corpus.length : ℚ))

/-- The values of a rank state on the corpus pages. -/
def sumRanks (corpus : Corpus) (r : Page → ℚ) : ℚ := ((keys corpus).map r).sum

/-- Modelled from the spec (§4.3 synchronous update requirement): the
sweep that evaluates the recurrence for every page over the old rank
snapshot before installing any new value. -/
def sweepSync (corpus : Corpus) (d : ℚ) (r : Page → ℚ) : Page → ℚ :=
  fun k => newRank corpus d (corpus.length : ℚ) r k

/-- Modelled from the spec (§4.3 termination): the iterative solver with
a `max_iterations` cap, returning `(ranks, true)` on the first sweep in
which every page changes by less than the threshold and
`(ranks, false)` once the cap is exhausted without convergence. -/
def iterate_ranks_spec (corpus : Corpus) (d θ : ℚ) :
    Nat → (Page → ℚ) → (Page → ℚ) × Bool
  | 0, r => (r, false)
  | m + 1, r =>
    let r2 := sweepSync corpus d r
    if (keys corpus).all (fun k => decide (|r2 k - r k| < θ)) then (r2, true)
    else iterate_ranks_spec corpus d θ m r2

/-- Checked division: `none` exactly where Python raises
`ZeroDivisionError`. -/
def divQ (a b : ℚ) : Option ℚ := if b = 0 then none else some (a / b)

/-- `List.map` with a fallible function, propagating failure. -/
def mapOption (f : α → Option β) : List α → Option (List β)
  | [] => some []
  | a :: l => (f a).bind fun b => (mapOption f l).map fun bs => b :: bs

/-- `List.foldl` with a fallible step, propagating failure. -/
def foldlOption (f : σ → α → Option σ) : σ → List α → Option σ
  | s, [] => some s
  | s, a :: l => (f s a).bind fun s2 => foldlOption f s2 l

/-- `transition_model` with every Python division checked. -/
def transition_model_checked (corpus : Corpus) (page : Page) (d : ℚ) :
    Option (List (Page × ℚ)) :=
  let linked := (findPageData corpus page).1
  let unlinked := (findPageData corpus page).2
  let total : ℚ := (linked.length : ℚ) + (unlinked.length : ℚ)
  (divQ (1 - d) total).bind fun base_prob =>
    mapOption
      (fun key =>
        if key ∈ linked then
          (divQ d (linked.length : ℚ)).map fun share => (key, base_prob + share)
        else some (key, base_prob))
      (keys corpus)

/-- The recurrence of `iterate_pagerank` with every Python division
checked. -/
def newRank_checked (corpus : Corpus) (d : ℚ) (N : ℚ) (r : Page → ℚ)
    (key : Page) : Option ℚ :=
  (divQ (1 - d) N).bind fun base =>
    (foldlOption
        (fun sigma kv =>
          if key ∈ kv.2 then
            (divQ (r kv.1) (kv.2.length : ℚ)).map fun x => sigma + x
          else some sigma)
        0 corpus).map
      fun sigma => base + d * sigma

/-- One sweep of `iterate_pagerank` with every Python division
checked. -/
def sweepOnce_checked (corpus : Corpus) (d : ℚ) (r : Page → ℚ) :
    Option ((Page → ℚ) × Nat) :=
  foldlOption
    (fun st kv =>
      (newRank_checked corpus d (corpus.length : ℚ) st.1 kv.1).map fun new =>
        (update st.1 kv.1 new,
          if |st.1 kv.1 - new| < threshold then st.2 + 1 else st.2))
    (r, 0) corpus

/-- The loop of `iterate_pagerank` with checked divisions: the outer
`Option` is division failure, the inner one is fuel exhaustion. -/
def iterateAux_checked (corpus : Corpus) (d : ℚ) :
    Nat → (Page → ℚ) → Option (Option (Page → ℚ))
  | 0, _ => some none
  | fuel + 1, r =>
    (sweepOnce_checked corpus d r).bind fun st =>
      if st.2 = corpus.length then some (some st.1)
      else iterateAux_checked corpus d fuel st.1

/-- `iterate_pagerank` with checked divisions (including the `1 / N`
initialisation). -/
def iterate_pagerank_checked (corpus : Corpus) (d : ℚ) (fuel : Nat) :
    Option (Option (Page → ℚ)) :=
  (divQ 1 (corpus.length : ℚ)).bind fun init =>
    iterateAux_checked corpus d fuel (fun _ => init)

/-- The two-page mutual-link corpus of §8. -/
def G2 : Corpus := [("a", ["b"]), ("b", ["a"])]

/-- A three-page corpus on which the in-place sweep visibly differs from
the synchronous one. -/
def G3 : Corpus := [("a", ["b"]), ("b", ["a"]), ("c", ["a"])]

/-- The dangling-page corpus of §8: pages a, b link to each other and to
c; c has no outgoing links. -/
def GD : Corpus := [("a", ["b", "c"]), ("b", ["a", "c"]), ("c", [])]

/-- A two-page corpus with a dangling page b. -/
def GD2 : Corpus := [("a", ["b"]), ("b", [])]

/-- The single isolated page corpus of §8. -/
def P1 : Corpus := [("p", [])]


/-- The keys of a cons corpus. -/
lemma keys_cons (kv : Page × List Page) (rest : Corpus) :
    keys (kv :: rest) = kv.1 :: keys rest := rfl

/-- Claim C6 amended: `sample_pagerank` performs no argument validation.
On an empty corpus the initial uniform choice fails; for `n = 0` the
division `1 / n` fails; for every other `n` — including every negative
`n` — it silently returns a rank dictionary. -/
theorem sample_pagerank_failure_modes (corpus : Corpus) (d : ℚ) (n : Int)
    (rng : Nat → Nat) :
    (corpus = [] → sample_pagerank corpus d n rng = none) ∧
      (corpus ≠ [] → sample_pagerank corpus d 0 rng = none) ∧
      (corpus ≠ [] → n ≠ 0 → (sample_pagerank corpus d n rng).isSome = true) := by
  obtain _ | ⟨kv, rest⟩ := corpus
  · exact ⟨fun _ => rfl, fun h => absurd rfl h, fun h => absurd rfl h⟩
  · refine ⟨?_, ?_, ?_⟩
    · intro h
      exact absurd h (List.cons_ne_nil kv rest)
    · intro _
      simp [sample_pagerank]
    · intro _ hn
      simp [sample_pagerank, hn]

/-- Witness for `sample_pagerank_failure_modes`: on the single-page
corpus, `n = 0` fails while `n = -3 < 1` returns a dictionary. -/
theorem sample_pagerank_failure_modes_witness :
    sample_pagerank P1 (1 / 2) 0 (fun _ => 0) = none ∧
      (sample_pagerank P1 (1 / 2) (-3) (fun _ => 0)).isSome = true :=
  ⟨(sample_pagerank_failure_modes P1 (1 / 2) (-3) (fun _ => 0)).2.1 (by decide),
    (sample_pagerank_failure_modes P1 (1 / 2) (-3) (fun _ => 0)).2.2 (by decide)
      (by decide)⟩

/-- Claim C4 amended: `iterate_pagerank` has no iteration cap and no
converged flag; whatever fuel its unbounded loop is granted, whenever it
returns, the returned ranks are the outcome of a sweep in which all `N`
pages changed by less than the fixed threshold (and otherwise it keeps
looping, never stopping with a partial result). -/
theorem iterate_returns_only_after_converged_sweep (corpus : Corpus) (d : ℚ) :
    ∀ (fuel : Nat) (r res : Page → ℚ), iterateAux corpus d fuel r = some res →
      ∃ rp, (sweepOnce corpus d rp).2 = corpus.length ∧
        res = (sweepOnce corpus d rp).1 := by
  intro fuel
  induction fuel with
  | zero => intro r res h; cases h
  | succ m ih =>
    intro r res h
    simp only [iterateAux] at h
    by_cases hc : (sweepOnce corpus d r).2 = corpus.length
    · rw [if_pos hc] at h
      exact ⟨r, hc, (Option.some_inj.mp h).symm⟩
    · rw [if_neg hc] at h
      exact ih _ _ h

/-- Witness for `iterate_returns_only_after_converged_sweep`: the
single-page run that returns after its second sweep. -/
theorem iterate_returns_only_after_converged_sweep_witness :
    ∃ rp, (sweepOnce P1 (17 / 20) rp).2 = P1.length ∧
      (sweepOnce P1 (17 / 20)
          (sweepOnce P1 (17 / 20) (fun _ => 1 / (P1.length : ℚ))).1).1 =
        (sweepOnce P1 (17 / 20) rp).1 :=
  iterate_returns_only_after_converged_sweep P1 (17 / 20) 2
    (fun _ => 1 / (P1.length : ℚ)) _ (by with_unfolding_all rfl)

/-- Folding sweep steps over corpus entries whose keys all differ from
`k` leaves the rank value at `k` unchanged. -/
lemma foldl_sweepStep_apply_of_not_mem (corpus : Corpus) (d N : ℚ)
    (items : Corpus) (k : Page) (hk : k ∉ keys items) :
    ∀ st : (Page → ℚ) × Nat,
      ((items.foldl (sweepStep corpus d N) st).1) k = st.1 k := by
  induction items with
  | nil => intro st; rfl
  | cons kv rest ih =>
    intro st
    rw [keys_cons] at hk
    have h1 : k ≠ kv.1 := fun h => hk (by simp [h])
    have h2 : k ∉ keys rest := fun h => hk (List.mem_cons_of_mem _ h)
    rw [List.foldl_cons]
    rw [ih h2]
    simp [sweepStep, update, h1]

/-- Claim C1 amended: one sweep of `iterate_pagerank` is the in-place
(Gauss–Seidel) sweep: for any decomposition of the corpus around a key
`k`, the sweep's value at `k` is the recurrence evaluated on the mixed
state in which all pages before `k` in dictionary order already carry
their new values. -/
theorem iterate_sweep_is_gauss_seidel (corpus : Corpus) (d : ℚ) (r : Page → ℚ)
    (pre post : Corpus) (k : Page) (ls : List Page)
    (hnd : (keys corpus).Nodup) (hsplit : corpus = pre ++ (k, ls) :: post) :
    (sweepOnce corpus d r).1 k =
      newRank corpus d (corpus.length : ℚ)
        ((pre.foldl (sweepStep corpus d (corpus.length : ℚ)) (r, 0)).1) k := by
  subst hsplit
  have hpost : k ∉ keys post := by
    rw [keys] at hnd
    rw [List.map_append] at hnd
    have h2 := hnd.of_append_right
    rw [List.map_cons] at h2
    exact (List.nodup_cons.mp h2).1
  rw [sweepOnce, List.foldl_append, List.foldl_cons]
  rw [foldl_sweepStep_apply_of_not_mem _ _ _ post k hpost]
  simp [sweepStep, update]

/-- Witness for `iterate_sweep_is_gauss_seidel`: page b of the corpus
a → b, b → a, c → a, whose sweep value is computed after page a has
already been updated. -/
theorem iterate_sweep_is_gauss_seidel_witness :
    (sweepOnce G3 (17 / 20) (fun _ => 1 / 3)).1 "b" =
      newRank G3 (17 / 20) (G3.length : ℚ)
        (([(("a" : Page), (["b"] : List Page))] : Corpus).foldl
            (sweepStep G3 (17 / 20) (G3.length : ℚ)) ((fun _ => 1 / 3), 0)).1
        "b" :=
  iterate_sweep_is_gauss_seidel G3 (17 / 20) (fun _ => 1 / 3)
    [("a", ["b"])] [("c", ["a"])] "b" ["a"] (by decide) (by decide)

end PageRank

namespace PageRank

/-- Claim C2 (code behaviour at the failing input): for the dangling
page b of the corpus a → b, b → ∅ with damping 0.85, transition_model
gives every page 3/40 = (1 - d)/N, so the values sum to 3/20 = 1 - d,
not to 1. -/
theorem transition_model_dangling_mass_leak :
    transition_model GD2 "b" (17 / 20) = [("a", 3 / 40), ("b", 3 / 40)] ∧
      sumValues (transition_model GD2 "b" (17 / 20)) = 3 / 20 := by
  constructor <;> with_unfolding_all decide

/-- Claim C7 (code behaviour at the failing input): on the dangling-page
corpus a → {b, c}, b → {a, c}, c → ∅ with damping 0.85,
iterate_pagerank converges within 8 sweeps, but the converged values sum
to about 0.298: the distance from 1 exceeds 1e-6 by far. -/
theorem iterate_pagerank_converged_sum_not_one :
    (iterate_pagerank GD (17 / 20) 8).isSome = true ∧
      1 - sumRanks GD ((iterate_pagerank GD (17 / 20) 8).getD (fun _ => 0)) >
        1 / 1000000 := by
  constructor <;> with_unfolding_all decide

/-- Claim C9 (code behaviour at the failing input): on the single
isolated page p with damping 0.85, sample_pagerank gives p rank 1, but
iterate_pagerank converges to 3/20 = 1 - d, not to 1. -/
theorem single_page_iterate_rank_not_one :
    (iterate_pagerank P1 (17 / 20) 3).map (fun r => r "p") = some (3 / 20) ∧
      sample_pagerank P1 (17 / 20) 5 (fun _ => 0) = some [("p", 1)] := by
  constructor <;> with_unfolding_all decide

/-- Claim C1 counterexample: on the corpus a → b, b → a, c → a with
damping 0.85 and the uniform rank state 1/3, the first sweep of
iterate_pagerank gives page b the value 689/1200 (computed from the
already-updated rank of a), while the synchronous snapshot sweep gives
it 1/3: one sweep of iterate_pagerank is not the synchronous sweep. -/
theorem sweep_not_synchronous_on_three_pages :
    (sweepOnce G3 (17 / 20) (fun _ => 1 / 3)).1 "b" ≠
      sweepSync G3 (17 / 20) (fun _ => 1 / 3) "b" := by
  with_unfolding_all decide

/-- Claim C4 counterexample: on the single isolated page with damping
0.85 and the source's threshold, the spec-modelled capped solver stops
after max_iterations = 1 sweeps and reports converged = false, but
iterate_pagerank has no cap: after 1 sweep its loop has not returned
(and it returns only after the second sweep, with no flag at all). -/
theorem iterate_pagerank_ignores_iteration_cap :
    (iterate_ranks_spec P1 (17 / 20) threshold 1 (fun _ => 1 / (P1.length : ℚ))).2
        = false ∧
      (iterate_pagerank P1 (17 / 20) 1).isSome = false ∧
      (iterate_pagerank P1 (17 / 20) 2).isSome = true := by
  refine ⟨by with_unfolding_all decide, by with_unfolding_all decide, by with_unfolding_all decide⟩

/-- Claim C6 counterexample: with n = -1 < 1 on a nonempty corpus,
sample_pagerank does not fail: it silently returns a dictionary, giving
the initially chosen page the value 1 / n = -1. -/
theorem sample_pagerank_accepts_negative_n :
    sample_pagerank [("p", [])] (1 / 2) (-1) (fun _ => 0) = some [("p", -1)] := by
  with_unfolding_all decide

end PageRank

namespace PageRank

/-- The scanning loop of `transition_model` leaves its accumulator
untouched when the queried page is not among the scanned keys. -/
lemma foldl_fpStep_of_not_mem (A : List Page) (page : Page) (items : Corpus)
    (hp : page ∉ keys items) :
    ∀ acc : List Page × List Page, items.foldl (fpStep A page) acc = acc := by
  induction items with
  | nil => intro acc; rfl
  | cons kv rest ih =>
    intro acc
    rw [keys_cons] at hp
    have h1 : kv.1 ≠ page := fun h => hp (by simp [h])
    have h2 : page ∉ keys rest := fun h => hp (List.mem_cons_of_mem _ h)
    rw [List.foldl_cons]
    have hstep : fpStep A page acc kv = acc := by simp [fpStep, h1]
    rw [hstep]
    exact ih h2 acc

/-- With unique keys, the scanning loop of `transition_model` finds the
queried page's link set and complements it against `A`. -/
lemma foldl_fpStep_of_mem (A : List Page) (page : Page) (items : Corpus)
    (hnd : (keys items).Nodup) (ls : List Page) (hmem : (page, ls) ∈ items) :
    ∀ acc : List Page × List Page,
      items.foldl (fpStep A page) acc = (ls, A.filter (fun k => ¬ k ∈ ls)) := by
  induction items with
  | nil => cases hmem
  | cons kv rest ih =>
    intro acc
    rw [keys_cons] at hnd
    obtain ⟨hhead, htail⟩ := List.nodup_cons.mp hnd
    rcases List.mem_cons.mp hmem with heq | hrest
    · have hk1 : kv.1 = page := by rw [← heq]
      have hk2 : kv.2 = ls := by rw [← heq]
      have hnp : page ∉ keys rest := by rw [← hk1]; exact hhead
      rw [List.foldl_cons]
      rw [foldl_fpStep_of_not_mem A page rest hnp]
      simp [fpStep, hk1, hk2]
    · have hpk : page ∈ keys rest := by
        have : Prod.fst (page, ls) ∈ keys rest := List.mem_map_of_mem Prod.fst hrest
        simpa using this
      have h1 : kv.1 ≠ page := fun h => hhead (h ▸ hpk)
      rw [List.foldl_cons]
      have hstep : fpStep A page acc kv = acc := by simp [fpStep, h1]
      rw [hstep]
      exact ih htail hrest acc

/-- With unique keys, `findPageData` returns the queried page's link
set together with all other corpus pages. -/
lemma findPageData_eq (corpus : Corpus) (page : Page) (ls : List Page)
    (hnd : (keys corpus).Nodup) (hmem : (page, ls) ∈ corpus) :
    findPageData corpus page =
      (ls, (keys corpus).filter (fun k => ¬ k ∈ ls)) :=
  foldl_fpStep_of_mem (keys corpus) page corpus hnd ls hmem ([], [])

/-- Counting: a duplicate-free sublist plus its complement-by-filter
cover the key list exactly. -/
lemma length_filter_not_mem (ls keysl : List Page) (hnd : keysl.Nodup)
    (hls : ls.Nodup) (hsub : ∀ x ∈ ls, x ∈ keysl) :
    ls.length + (keysl.filter (fun k => ¬ k ∈ ls)).length = keysl.length := by
  have hsplit := List.length_eq_length_filter_add (l := keysl)
    (fun k => decide (k ∈ ls))
  have hleft : (keysl.filter (fun k => decide (k ∈ ls))).length = ls.length := by
    apply Nat.le_antisymm
    · apply List.Subperm.length_le
      apply List.Nodup.subperm (hnd.filter _)
      intro x hx
      have := List.mem_filter.mp hx
      simpa using this.2
    · apply List.Subperm.length_le
      apply List.Nodup.subperm hls
      intro x hx
      exact List.mem_filter.mpr ⟨hsub x hx, by simpa using hx⟩
  have hnegs : (keysl.filter (fun k => !(decide (k ∈ ls)))).length =
      (keysl.filter (fun k => ¬ k ∈ ls)).length := by
    simp [decide_not]
  rw [hsplit, hleft, hnegs]

end PageRank

namespace PageRank

/-- Mapping each key to a pair keyed by itself and then projecting the
keys back is the identity. -/
lemma map_fst_map_pair (L : List Page) (f : Page → ℚ) :
    (L.map (fun k => (k, f k))).map Prod.fst = L := by
  induction L with
  | nil => rfl
  | cons a t ih => simp [ih]

/-- Claim C3 (confirmed): for a valid graph and a queried page with at
least one outgoing link, transition_model covers every page of the
graph and assigns page q exactly (1 - d)/N + (d/k when q is linked,
else 0), with N the page count and k the outdegree of the queried
page. -/
theorem transition_model_linked_formula (corpus : Corpus) (page : Page)
    (ls : List Page) (d : ℚ) (hvalid : ValidGraph corpus)
    (hmem : (page, ls) ∈ corpus) (hk : ls ≠ [])
    (hd0 : 0 < d) (hd1 : d < 1) :
    (transition_model corpus page d).map Prod.fst = keys corpus ∧
      ∀ q ∈ keys corpus,
        (q, (1 - d) / (corpus.length : ℚ) +
            (if q ∈ ls then d / (ls.length : ℚ) else 0)) ∈
          transition_model corpus page d := by
  obtain ⟨hnd, hprops⟩ := hvalid
  have hfp := findPageData_eq corpus page ls hnd hmem
  have hcnt : ls.length + ((keys corpus).filter (fun k => ¬ k ∈ ls)).length
      = corpus.length := by
    have hp := hprops (page, ls) hmem
    have h1 := length_filter_not_mem ls (keys corpus) hnd hp.1
      (fun x hx => hp.2.1 x hx)
    simpa [keys] using h1
  have htot : ((ls.length : ℚ) +
      ((((keys corpus).filter (fun k => ¬ k ∈ ls)).length : ℚ))) =
      (corpus.length : ℚ) := by
    exact_mod_cast congrArg (fun m : Nat => (m : ℚ)) hcnt
  have hform : transition_model corpus page d =
      (keys corpus).map (fun key =>
        (key, if key ∈ ls
          then (1 - d) / (corpus.length : ℚ) + d / (ls.length : ℚ)
          else (1 - d) / (corpus.length : ℚ))) := by
    simp only [transition_model, hfp]
    rw [htot]
  constructor
  · rw [hform]
    exact map_fst_map_pair (keys corpus) _
  · intro q hq
    rw [hform]
    refine List.mem_map.mpr ⟨q, hq, ?_⟩
    by_cases hql : q ∈ ls
    · simp [hql]
    · simp [hql]

/-- Witness for `transition_model_linked_formula` on the two-page
mutual-link corpus at page a, projected to entry b. -/
theorem transition_model_linked_formula_witness :
    ValidGraph G2 ∧
      (("b" : Page), (1 - 17 / 20 : ℚ) / (G2.length : ℚ) +
          (if ("b" : Page) ∈ (["b"] : List Page)
            then (17 / 20 : ℚ) / (((["b"] : List Page).length : ℚ)) else 0)) ∈
        transition_model G2 "a" (17 / 20) :=
  ⟨⟨by decide, by decide⟩,
    (transition_model_linked_formula G2 "a" ["b"] (17 / 20)
        ⟨by decide, by decide⟩ (by decide) (by decide) (by norm_num)
        (by norm_num)).2 "b" (by decide)⟩

/-- Claim C10 (confirmed): for a dangling page of a nonempty graph with
unique keys and damping strictly between 0 and 1, transition_model gives
every page the same value (1 - d)/N, and the values sum to 1 - d, which
is not 1. -/
theorem transition_model_dangling_uniform (corpus : Corpus) (page : Page)
    (d : ℚ) (hnd : (keys corpus).Nodup) (hne : corpus ≠ [])
    (hmem : (page, ([] : List Page)) ∈ corpus) (hd0 : 0 < d) (hd1 : d < 1) :
    (∀ q ∈ keys corpus,
        (q, (1 - d) / (corpus.length : ℚ)) ∈ transition_model corpus page d) ∧
      sumValues (transition_model corpus page d) = 1 - d ∧
      sumValues (transition_model corpus page d) ≠ 1 := by
  have hfp := findPageData_eq corpus page [] hnd hmem
  have hlen : corpus.length ≠ 0 := fun h => hne (List.length_eq_zero.mp h)
  have hN0 : (corpus.length : ℚ) ≠ 0 := Nat.cast_ne_zero.mpr hlen
  have hform : transition_model corpus page d =
      (keys corpus).map (fun key => (key, (1 - d) / (corpus.length : ℚ))) := by
    simp only [transition_model, hfp]
    simp [keys]
  have hconst : ∀ L : List Page,
      sumValues (L.map (fun key => (key, (1 - d) / (corpus.length : ℚ)))) =
        (L.length : ℚ) * ((1 - d) / (corpus.length : ℚ)) := by
    intro L
    induction L with
    | nil => simp [sumValues]
    | cons a t ih =>
      simp only [sumValues, List.map_cons, List.sum_cons, List.length_cons] at ih ⊢
      rw [ih]
      push_cast
      ring
  have hsum : sumValues (transition_model corpus page d) = 1 - d := by
    rw [hform, hconst (keys corpus)]
    have hkl : (((keys corpus).length : ℚ)) = (corpus.length : ℚ) := by
      simp [keys]
    rw [hkl, mul_comm]
    exact div_mul_cancel₀ _ hN0
  refine ⟨?_, hsum, ?_⟩
  · intro q hq
    rw [hform]
    exact List.mem_map.mpr ⟨q, hq, rfl⟩
  · rw [hsum]
    intro h
    have : d = 0 := by linarith
    exact absurd this (ne_of_gt hd0)

/-- Witness for `transition_model_dangling_uniform` at the dangling page
b of the corpus a → b, b → ∅, projected to entry a. -/
theorem transition_model_dangling_uniform_witness :
    (keys GD2).Nodup ∧
      (("a" : Page), (1 - 17 / 20 : ℚ) / (GD2.length : ℚ)) ∈
        transition_model GD2 "b" (17 / 20) :=
  ⟨by decide,
    (transition_model_dangling_uniform GD2 "b" (17 / 20) (by decide) (by decide)
        (by decide) (by norm_num) (by norm_num)).1 "a" (by decide)⟩

end PageRank

namespace PageRank

/-- The pages of a transition model are exactly the corpus pages. -/
lemma transition_model_map_fst (corpus : Corpus) (page : Page) (d : ℚ) :
    (transition_model corpus page d).map Prod.fst = keys corpus := by
  simp only [transition_model]
  exact map_fst_map_pair (keys corpus) _

/-- A draw from a nonempty population is a member of it. -/
lemma pick_mem (pop : List Page) (r : Nat) (h : pop ≠ []) : pick pop r ∈ pop := by
  have hlen : 0 < pop.length := List.length_pos.mpr h
  have hlt : r % pop.length < pop.length := Nat.mod_lt _ hlen
  rw [pick, List.getD_eq_getElem?_getD, List.getElem?_eq_getElem hlt]
  exact List.getElem_mem hlt

/-- Every page visited by the sampling loop is a corpus page. -/
lemma sampleChain_mem (corpus : Corpus) (d : ℚ) (rng : Nat → Nat)
    (hne : corpus ≠ []) :
    ∀ (m i : Nat) (s x : Page),
      x ∈ sampleChain corpus d rng m i s → x ∈ keys corpus := by
  have hkne : keys corpus ≠ [] := fun h => hne (List.map_eq_nil_iff.mp h)
  intro m
  induction m with
  | zero => intro i s x hx; cases hx
  | succ t ih =>
    intro i s x hx
    rw [sampleChain] at hx
    rcases List.mem_cons.mp hx with h | h
    · have hkeysm := transition_model_map_fst corpus s d
      rw [h, ← hkeysm]
      exact pick_mem _ _ (by rw [hkeysm]; exact hkne)
    · exact ih (i + 1) _ x h

/-- Every page of the full sampling trajectory is a corpus page. -/
lemma sampleTrajectory_mem (corpus : Corpus) (d : ℚ) (n : Int)
    (rng : Nat → Nat) (hne : corpus ≠ []) :
    ∀ x ∈ sampleTrajectory corpus d n rng, x ∈ keys corpus := by
  have hkne : keys corpus ≠ [] := fun h => hne (List.map_eq_nil_iff.mp h)
  intro x hx
  rw [sampleTrajectory] at hx
  rcases List.mem_cons.mp hx with h | h
  · rw [h]; exact pick_mem _ _ hkne
  · exact sampleChain_mem corpus d rng hne _ _ _ x h

/-- The sampling loop takes exactly the requested number of steps. -/
lemma sampleChain_length (corpus : Corpus) (d : ℚ) (rng : Nat → Nat) :
    ∀ (m i : Nat) (s : Page), (sampleChain corpus d rng m i s).length = m := by
  intro m
  induction m with
  | zero => intro i s; rfl
  | succ t ih =>
    intro i s
    rw [sampleChain]
    simp [ih]

/-- Accumulating the visits of a trajectory gives each page its visit
count times 1 / n. -/
lemma foldl_visitAdd_apply (n : Int) :
    ∀ (traj : List Page) (r0 : Page → ℚ) (q : Page),
      (traj.foldl (visitAdd n) r0) q = r0 q + (traj.count q : ℚ) * (1 / (n : ℚ)) := by
  intro traj
  induction traj with
  | nil => intro r0 q; simp
  | cons s t ih =>
    intro r0 q
    rw [List.foldl_cons, ih]
    by_cases h : q = s
    · rw [h]
      simp [visitAdd, List.count_cons]
      push_cast
      ring
    · have hbeq : (s == q) = false := by
        simp
        exact fun hh => h hh.symm
      simp [visitAdd, h, List.count_cons, hbeq]

/-- Adding one visit at a page of a duplicate-free key list raises the
total accumulated mass by exactly 1 / n. -/
lemma sum_map_visitAdd (n : Int) (r0 : Page → ℚ) (s : Page) :
    ∀ keysl : List Page, keysl.Nodup → s ∈ keysl →
      (keysl.map (visitAdd n r0 s)).sum = (keysl.map r0).sum + 1 / (n : ℚ) := by
  intro keysl
  induction keysl with
  | nil => intro _ h; cases h
  | cons a t ih =>
    intro hnd hs
    obtain ⟨hna, hnt⟩ := List.nodup_cons.mp hnd
    rcases List.mem_cons.mp hs with h | h
    · have hmap : t.map (visitAdd n r0 s) = t.map r0 := by
        apply List.map_congr_left
        intro x hx
        have hxs : x ≠ s := by
          intro hh
          rw [h] at hh
          exact hna (hh ▸ hx)
        simp [visitAdd, hxs]
      rw [List.map_cons, List.map_cons, List.sum_cons, List.sum_cons, hmap]
      have hhead : visitAdd n r0 s a = r0 a + 1 / (n : ℚ) := by
        rw [h]
        simp [visitAdd]
      rw [hhead]
      ring
    · have hne2 : a ≠ s := by
        intro hh
        rw [hh] at hna
        exact hna h
      rw [List.map_cons, List.map_cons, List.sum_cons, List.sum_cons, ih hnt h]
      have hhead : visitAdd n r0 s a = r0 a := by
        simp [visitAdd, hne2]
      rw [hhead]
      ring

/-- Accumulating a trajectory of visits over duplicate-free keys adds
its length times 1 / n to the total mass. -/
lemma foldl_visitAdd_sum (n : Int) (keysl : List Page) (hnd : keysl.Nodup) :
    ∀ (traj : List Page) (r0 : Page → ℚ), (∀ x ∈ traj, x ∈ keysl) →
      (keysl.map (traj.foldl (visitAdd n) r0)).sum =
        (keysl.map r0).sum + (traj.length : ℚ) * (1 / (n : ℚ)) := by
  intro traj
  induction traj with
  | nil => intro r0 h; simp
  | cons s t ih =>
    intro r0 h
    rw [List.foldl_cons]
    rw [ih (visitAdd n r0 s) (fun x hx => h x (List.mem_cons_of_mem _ hx))]
    rw [sum_map_visitAdd n r0 s keysl hnd (h s (List.mem_cons_self s t))]
    rw [List.length_cons]
    push_cast
    ring

/-- The sum of an everywhere-zero map. -/
lemma sum_map_zero : ∀ L : List Page, (L.map (fun _ => (0 : ℚ))).sum = 0 := by
  intro L
  induction L with
  | nil => rfl
  | cons a t ih => simp [ih]

end PageRank

namespace PageRank

/-- Claim C5 (confirmed): for a valid nonempty graph, damping in (0,1),
n ≥ 1 and any draw sequence, sample_pagerank returns the dictionary
that maps each corpus page to its visit count divided by n; the
trajectory records exactly n visits (each contributing 1 / n), and the
returned values sum to exactly 1. -/
theorem sample_pagerank_visit_frequencies (corpus : Corpus) (d : ℚ) (n : Int)
    (rng : Nat → Nat) (hnd : (keys corpus).Nodup) (hne : corpus ≠ [])
    (hn : 1 ≤ n) (hd0 : 0 < d) (hd1 : d < 1) :
    sample_pagerank corpus d n rng =
        some ((keys corpus).map (fun k =>
          (k, ((sampleTrajectory corpus d n rng).count k : ℚ) / (n : ℚ)))) ∧
      (sampleTrajectory corpus d n rng).length = n.toNat ∧
      sumValues ((keys corpus).map (fun k =>
          (k, ((sampleTrajectory corpus d n rng).count k : ℚ) / (n : ℚ)))) = 1 := by
  have hn0 : n ≠ 0 := by omega
  have hnq : (n : ℚ) ≠ 0 := Int.cast_ne_zero.mpr hn0
  have hlen : (sampleTrajectory corpus d n rng).length = n.toNat := by
    rw [sampleTrajectory]
    rw [List.length_cons, sampleChain_length]
    omega
  have hptwise : ∀ q : Page,
      ((sampleTrajectory corpus d n rng).foldl (visitAdd n) (fun _ => 0)) q =
        ((sampleTrajectory corpus d n rng).count q : ℚ) / (n : ℚ) := by
    intro q
    rw [foldl_visitAdd_apply, mul_one_div]
    simp
  have hmapeq : ((keys corpus).map (fun k =>
        (k, ((sampleTrajectory corpus d n rng).foldl (visitAdd n) (fun _ => 0)) k))) =
      ((keys corpus).map (fun k =>
        (k, ((sampleTrajectory corpus d n rng).count k : ℚ) / (n : ℚ)))) := by
    apply List.map_congr_left
    intro x hx
    rw [hptwise x]
  have hsome : sample_pagerank corpus d n rng =
      some ((keys corpus).map (fun k =>
        (k, ((sampleTrajectory corpus d n rng).foldl (visitAdd n) (fun _ => 0)) k))) := by
    obtain ⟨kv, rest, hc⟩ : ∃ kv rest, corpus = kv :: rest := by
      cases corpus with
      | nil => exact absurd rfl hne
      | cons kv rest => exact ⟨kv, rest, rfl⟩
    subst hc
    simp [sample_pagerank, hn0]
  have hsum : sumValues ((keys corpus).map (fun k =>
      (k, ((sampleTrajectory corpus d n rng).count k : ℚ) / (n : ℚ)))) = 1 := by
    rw [← hmapeq, sumValues, List.map_map]
    have hcomp : (Prod.snd ∘ fun k : Page =>
        (k, ((sampleTrajectory corpus d n rng).foldl (visitAdd n) (fun _ => 0)) k)) =
        ((sampleTrajectory corpus d n rng).foldl (visitAdd n) (fun _ => 0)) := rfl
    rw [hcomp]
    rw [foldl_visitAdd_sum n (keys corpus) hnd _ _
      (sampleTrajectory_mem corpus d n rng hne)]
    rw [sum_map_zero, hlen]
    have hcast : ((n.toNat : ℚ)) = (n : ℚ) := by
      have h1 : ((n.toNat : ℤ)) = n := Int.toNat_of_nonneg (by omega)
      exact_mod_cast h1
    rw [hcast, zero_add]
    exact mul_one_div_cancel hnq
  exact ⟨by rw [hsome, hmapeq], hlen, hsum⟩

/-- Witness for `sample_pagerank_visit_frequencies` on the two-page
mutual-link corpus with n = 3 and the identity draw stream. -/
theorem sample_pagerank_visit_frequencies_witness :
    sumValues ((keys G2).map (fun k =>
        (k, ((sampleTrajectory G2 (1 / 2) 3 (fun i => i)).count k : ℚ) /
          ((3 : Int) : ℚ)))) = 1 :=
  (sample_pagerank_visit_frequencies G2 (1 / 2) 3 (fun i => i) (by decide)
      (by decide) (by decide) (by norm_num) (by norm_num)).2.2

end PageRank

namespace PageRank

/-- Checked division succeeds on nonzero divisors. -/
lemma divQ_some (a b : ℚ) (h : b ≠ 0) : divQ a b = some (a / b) := by
  simp [divQ, h]

/-- A fallible map whose function succeeds pointwise is the plain map. -/
lemma mapOption_eq_map {α β : Type} (f : α → Option β) (g : α → β) :
    ∀ l : List α, (∀ x ∈ l, f x = some (g x)) → mapOption f l = some (l.map g) := by
  intro l
  induction l with
  | nil => intro _; rfl
  | cons a t ih =>
    intro h
    simp only [mapOption]
    rw [h a (List.mem_cons_self a t),
      ih (fun x hx => h x (List.mem_cons_of_mem _ hx))]
    rfl

/-- A fallible fold whose step succeeds pointwise is the plain fold. -/
lemma foldlOption_eq_foldl {α σ : Type} (F : σ → α → Option σ) (G : σ → α → σ) :
    ∀ l : List α, (∀ (st : σ), ∀ x ∈ l, F st x = some (G st x)) →
      ∀ st : σ, foldlOption F st l = some (l.foldl G st) := by
  intro l
  induction l with
  | nil => intro _ st; rfl
  | cons a t ih =>
    intro h st
    simp only [foldlOption]
    rw [h st a (List.mem_cons_self a t)]
    rw [List.foldl_cons]
    exact ih (fun st2 x hx => h st2 x (List.mem_cons_of_mem _ hx)) (G st a)

/-- The checked recurrence succeeds and agrees with the plain one: its
only divisions are by `N` and by link counts guarded by membership. -/
lemma newRank_checked_eq (corpus : Corpus) (d N : ℚ) (hN : N ≠ 0)
    (r : Page → ℚ) (key : Page) :
    newRank_checked corpus d N r key = some (newRank corpus d N r key) := by
  unfold newRank_checked newRank
  rw [divQ_some _ _ hN]
  rw [foldlOption_eq_foldl
    (fun sigma kv =>
      if key ∈ kv.2 then
        (divQ (r kv.1) ((kv.2.length : ℚ))).map fun x => sigma + x
      else some sigma)
    (fun sigma kv =>
      if key ∈ kv.2 then sigma + r kv.1 / ((kv.2.length : ℚ)) else sigma)
    corpus ?side 0]
  case side =>
    intro st kv hkv
    dsimp only
    by_cases hx : key ∈ kv.2
    · have hlen : kv.2.length ≠ 0 := fun h =>
        (List.ne_nil_of_mem hx) (List.length_eq_zero.mp h)
      rw [if_pos hx, if_pos hx, divQ_some _ _ (Nat.cast_ne_zero.mpr hlen)]
      rfl
    · rw [if_neg hx, if_neg hx]
  rfl

/-- The checked sweep succeeds and agrees with the plain sweep on any
nonempty corpus. -/
lemma sweepOnce_checked_eq (corpus : Corpus) (d : ℚ) (hne : corpus ≠ [])
    (r : Page → ℚ) :
    sweepOnce_checked corpus d r = some (sweepOnce corpus d r) := by
  have hN : ((corpus.length : ℚ)) ≠ 0 :=
    Nat.cast_ne_zero.mpr (fun h => hne (List.length_eq_zero.mp h))
  unfold sweepOnce_checked sweepOnce
  apply foldlOption_eq_foldl
  intro st kv hkv
  dsimp only
  rw [newRank_checked_eq corpus d _ hN st.1 kv.1]
  rfl

/-- The checked iteration loop succeeds and agrees with the plain loop
on any nonempty corpus. -/
lemma iterateAux_checked_eq (corpus : Corpus) (d : ℚ) (hne : corpus ≠ []) :
    ∀ (fuel : Nat) (r : Page → ℚ),
      iterateAux_checked corpus d fuel r = some (iterateAux corpus d fuel r) := by
  intro fuel
  induction fuel with
  | zero => intro r; rfl
  | succ m ih =>
    intro r
    simp only [iterateAux_checked, iterateAux]
    rw [sweepOnce_checked_eq corpus d hne r]
    by_cases hc : (sweepOnce corpus d r).2 = corpus.length
    · simp [hc]
    · simp [hc, ih]

/-- The checked transition model succeeds and agrees with the plain one
whenever the queried page is a corpus key. -/
lemma transition_model_checked_eq (corpus : Corpus) (page : Page) (d : ℚ)
    (hnd : (keys corpus).Nodup) (hp : page ∈ keys corpus) :
    transition_model_checked corpus page d =
      some (transition_model corpus page d) := by
  obtain ⟨kv, hkv, hfst⟩ := List.mem_map.mp hp
  have hmem : (page, kv.2) ∈ corpus := by
    have : kv = (page, kv.2) := by
      rw [← hfst]
    rw [← this]
    exact hkv
  have hfp := findPageData_eq corpus page kv.2 hnd hmem
  have hkne : keys corpus ≠ [] := List.ne_nil_of_mem hp
  have htotnat : kv.2.length +
      ((keys corpus).filter (fun k => ¬ k ∈ kv.2)).length ≠ 0 := by
    by_cases hls : kv.2 = []
    · rw [hls]
      have : (keys corpus).filter (fun k => ¬ k ∈ ([] : List Page)) = keys corpus := by
        simp
      rw [this]
      simpa using fun h => hkne (List.length_eq_zero.mp h)
    · have : kv.2.length ≠ 0 := fun h => hls (List.length_eq_zero.mp h)
      omega
  have htot : ((kv.2.length : ℚ) +
      ((((keys corpus).filter (fun k => ¬ k ∈ kv.2)).length : ℚ))) ≠ 0 := by
    intro h
    apply htotnat
    exact_mod_cast h
  unfold transition_model_checked transition_model
  rw [hfp]
  dsimp only
  rw [divQ_some _ _ htot]
  apply mapOption_eq_map
  intro x hx
  dsimp only
  by_cases hxl : x ∈ kv.2
  · have hlen : kv.2.length ≠ 0 := fun h =>
      (List.ne_nil_of_mem hxl) (List.length_eq_zero.mp h)
    rw [if_pos hxl, if_pos hxl, divQ_some _ _ (Nat.cast_ne_zero.mpr hlen)]
    rfl
  · rw [if_neg hxl, if_neg hxl]

/-- Claim C8 (confirmed): with checked divisions at every Python
division site, transition_model on any corpus key (dangling or not) and
iterate_pagerank on any nonempty corpus never hit a zero divisor: the
checked variants succeed and agree with the plain functions, because
every division by a link count runs only under a membership guard that
forces the count to be at least 1. -/
theorem no_unguarded_link_count_division (corpus : Corpus) (page : Page)
    (d : ℚ) (fuel : Nat) (hnd : (keys corpus).Nodup) :
    (page ∈ keys corpus →
        transition_model_checked corpus page d =
          some (transition_model corpus page d)) ∧
      (corpus ≠ [] →
        iterate_pagerank_checked corpus d fuel =
          some (iterate_pagerank corpus d fuel)) := by
  constructor
  · intro hp
    exact transition_model_checked_eq corpus page d hnd hp
  · intro hne
    have hN : ((corpus.length : ℚ)) ≠ 0 :=
      Nat.cast_ne_zero.mpr (fun h => hne (List.length_eq_zero.mp h))
    unfold iterate_pagerank_checked iterate_pagerank
    rw [divQ_some _ _ hN]
    exact iterateAux_checked_eq corpus d hne fuel _

/-- Witness for `no_unguarded_link_count_division` on the dangling-page
corpus of §8 at the dangling page c. -/
theorem no_unguarded_link_count_division_witness :
    ("c" ∈ keys GD ∧
        transition_model_checked GD "c" (17 / 20) =
          some (transition_model GD "c" (17 / 20))) ∧
      (GD ≠ [] ∧
        iterate_pagerank_checked GD (17 / 20) 8 =
          some (iterate_pagerank GD (17 / 20) 8)) :=
  ⟨⟨by decide,
      (no_unguarded_link_count_division GD "c" (17 / 20) 8 (by decide)).1
        (by decide)⟩,
    ⟨by decide,
      (no_unguarded_link_count_division GD "c" (17 / 20) 8 (by decide)).2
        (by decide)⟩⟩

end PageRank
